import Mathlib

/-!
Verification development for the pagefind_web query-time core
(src/pagefind_web/src/lib.rs): an in-memory inverted search index built
incrementally from binary payloads, queried by free-text terms.

Modelling conventions:
* Rust `&str` / `String` values are Lean `String`s.  The Rust string
  operations used by the source (`str::split(' ')`, byte-lexicographic
  `<=`/`>=` comparison, `Vec::join`, `u32::to_string`) are embedded as
  structurally recursive Lean functions over the underlying character
  lists, so that all of them evaluate by kernel reduction.  On valid
  UTF-8, Rust's byte-lexicographic order on `&str` coincides with the
  codepoint-lexicographic order on the character list used here.
* Rust `u32` values (`PageWord.page`, word locations) are modelled as
  `ℕ`: the source performs no arithmetic on them that could overflow.
* `bit_set::BitSet` is modelled as a strictly ascending `List ℕ`:
  `BitSet.insert` is ordered duplicate-free insertion,
  `BitSet.intersect_with` is filtering by membership, and iteration
  (which `bit_set` performs in ascending bit order) is the list itself.
* `std::collections::HashMap<String, V>` is modelled as an association
  list with first-match lookup; the source only ever calls `get`.
* The English stemmer (`rust_stemmers`, an external crate) is an
  explicit function parameter `stemmer : String → String`.
* The pointer-based ownership protocol of the exported entry points is
  modelled by `Option SearchIndex`: `some` is a re-externalized live
  index handle, `none` is the null-pointer sentinel.
-/

/-- One term's occurrences on one page (`PageWord` in lib.rs):
`page` is an index into `SearchIndex.pages`, `locs` the word positions
on that page. -/
structure PageWord where
  page : ℕ
  locs : List ℕ
deriving DecidableEq

/-- One chunk-directory entry (`IndexChunk` in lib.rs): the inclusive
lexicographic term range `[from, to]` served by the chunk with content
identifier `hash`. -/
structure IndexChunk where
  «from» : String
  «to» : String
  hash : String
deriving DecidableEq

/-- The root object (`SearchIndex` in lib.rs). -/
structure SearchIndex where
  web_version : String
  generator_version : Option String
  pages : List String
  chunks : List IndexChunk
  stops : List String
  words : List (String × List PageWord)
deriving DecidableEq

/-- Decode failures of the external metadata / chunk decoders. -/
abbrev DecodeError := String

/-- Helper for `splitSpace`: splits a character list at every space
character, keeping empty segments, exactly like Rust `str::split(' ')`. -/
def splitSpaceAux (cur : List Char) : List Char → List (List Char)
  | [] => [cur.reverse]
  | c :: cs =>
    if c = ' ' then cur.reverse :: splitSpaceAux [] cs
    else splitSpaceAux (c :: cur) cs

/-- Embedding of Rust `query.split(' ')`: tokenize on single spaces,
keeping empty terms (so the empty query yields one empty term). -/
def splitSpace (s : String) : List String :=
  (splitSpaceAux [] s.data).map String.mk

/-- Lexicographic `≤` on character lists, the order Rust uses for
`&str` comparison (byte order, which agrees with codepoint order on
valid UTF-8). -/
def charListLe : List Char → List Char → Bool
  | [], _ => true
  | _ :: _, [] => false
  | a :: as, b :: bs =>
    if a < b then true
    else if a = b then charListLe as bs
    else false

/-- Embedding of Rust `&str` comparison `s <= t`. -/
def strLe (s t : String) : Bool :=
  charListLe s.data t.data

/-- Embedding of Rust `Vec::<String>::join(sep)`. -/
def strJoin (sep : String) : List String → String
  | [] => ""
  | s :: ss => ss.foldl (fun acc t => acc ++ sep ++ t) s

/-- Count of matched locations falling inside the window
`[off, off + size)`. -/
def countInWindow (locs : List ℕ) (off size : ℕ) : ℕ :=
  (locs.filter (fun l => decide (off ≤ l ∧ l < off + size))).length

/-- Largest location in the list (0 when empty); windows starting
beyond it contain no matches. -/
def maxLoc (locs : List ℕ) : ℕ :=
  locs.foldr max 0

/-- Helper for `calculate_excerpt`: fold over candidate offsets keeping
the first offset achieving the maximal in-window match count. -/
def bestOffAux (locs : List ℕ) (size : ℕ) : List ℕ → ℕ × ℕ → ℕ × ℕ
  | [], best => best
  | o :: os, best =>
    if best.2 < countInWindow locs o size then
      bestOffAux locs size os (o, countInWindow locs o size)
    else
      bestOffAux locs size os best

/-- Modelled from the spec: `calculate_excerpt` lives in
src/pagefind_web/src/excerpt.rs, which is not under src/.  Per §4.5 it
returns a starting offset whose window `[offset, offset + size)`
contains the highest number of matched positions, ties broken by the
lowest offset, and 0 for an empty location list.  Scanning offsets
`0 .. maxLoc locs` suffices: any window starting beyond the largest
location contains no matches. -/
def calculate_excerpt (locs : List ℕ) (size : ℕ) : ℕ :=
  (bestOffAux locs size (List.range (maxLoc locs + 1))
    (0, countInWindow locs 0 size)).1

/-- Embedding of `BitSet::insert` on the ascending-list model:
ordered insertion that drops duplicates (setting an already-set bit). -/
def insertSorted (n : ℕ) : List ℕ → List ℕ
  | [] => [n]
  | m :: ms =>
    if n < m then n :: m :: ms
    else if n = m then m :: ms
    else m :: insertSorted n ms

/-- Embedding of `BitSet::intersect_with`: keep the elements of `a`
also present in `b` (ascending order is preserved). -/
def listInter (a b : List ℕ) : List ℕ :=
  a.filter (fun x => decide (x ∈ b))

/-- The per-term page set built in `search` (lib.rs lines 136–139):
`let mut set = BitSet::new(); for page in word_index
{ set.insert(page.page as usize); }`. -/
def pageSet (word_index : List PageWord) : List ℕ :=
  word_index.foldl (fun set p => insertSorted p.page set) []

/-- The term loop of `search` (lib.rs lines 130–142): for each
whitespace term, stem it and look it up in `words`; a hit extends the
flat `words` vector with the term's posting list and pushes the term's
page set onto `maps`; a miss contributes nothing. -/
def searchAccum (stemmer : String → String) (idx : SearchIndex)
    (query : String) : List PageWord × List (List ℕ) :=
  (splitSpace query).foldl
    (fun acc term =>
      match idx.words.lookup (stemmer term) with
      | some word_index => (acc.1 ++ word_index, acc.2 ++ [pageSet word_index])
      | none => acc)
    ([], [])

/-- The per-page location list of `search` (lib.rs lines 159–169):
filter the flat `words` vector to the records of this page and flatten
their location lists, in order. -/
def pageLocs (words : List PageWord) (page : ℕ) : List ℕ :=
  (words.filterMap (fun p => if p.page = page then some p.locs else none)).flatten

/-- One formatted result segment of `search` (lib.rs lines 170–179):
`format!("{}@{},{}@{}", pages[page], calculate_excerpt(&locs, 30), 30,
locs.join(","))`. -/
def resultSegment (idx : SearchIndex) (words : List PageWord) (page : ℕ) :
    String :=
  (idx.pages.getD page "") ++ "@" ++
    Nat.repr (calculate_excerpt (pageLocs words page) 30) ++ "," ++
    Nat.repr 30 ++ "@" ++
    strJoin "," ((pageLocs words page).map Nat.repr)

/-- The post-version-gate part of `search` (lib.rs lines 123–187):
drain `maps`; no map at all returns the empty string, otherwise
intersect left to right and emit one segment per surviving page in
ascending page order, joined by single spaces. -/
def searchBody (stemmer : String → String) (idx : SearchIndex)
    (query : String) : String :=
  match (searchAccum stemmer idx query).2 with
  | [] => ""
  | map :: rest =>
    strJoin " "
      (((rest.foldl listInter map)).map
        (resultSegment idx (searchAccum stemmer idx query).1))

/-- The intersection page list iterated by `search` after the term
loop: empty when no term had postings. -/
def searchPageList (stemmer : String → String) (idx : SearchIndex)
    (query : String) : List ℕ :=
  match (searchAccum stemmer idx query).2 with
  | [] => []
  | map :: rest => rest.foldl listInter map

/-- The version gate of `search` (lib.rs lines 116–121): a recorded
generator version differing from the runtime version fails the query. -/
def versionMismatch (idx : SearchIndex) : Bool :=
  match idx.generator_version with
  | some generator_version => generator_version != idx.web_version
  | none => false

/-- Embedding of `search` (lib.rs lines 112–188), parameterized by the
external stemmer. -/
def search (stemmer : String → String) (idx : SearchIndex)
    (query : String) : String :=
  if versionMismatch idx then "ERROR: Version mismatch"
  else searchBody stemmer idx query

/-- Embedding of `request_indexes` (lib.rs lines 89–110): for each
whitespace term (unstemmed), scan the chunk directory in order for the
first entry whose inclusive `[from, to]` range contains the term, and
collect its hash; join all collected hashes with spaces. -/
def request_indexes (idx : SearchIndex) (query : String) : String :=
  strJoin " "
    ((splitSpace query).foldl
      (fun acc term =>
        match idx.chunks.find?
            (fun chunk => strLe chunk.«from» term && strLe term chunk.«to») with
        | some index => acc ++ [index.hash]
        | none => acc)
      [])

/-- The empty index constructed at the top of `init_pagefind`
(lib.rs lines 54–61); the runtime version string is the embedded
`CARGO_PKG_VERSION` constant, kept as a parameter here. -/
def emptySearchIndex (web_version : String) : SearchIndex :=
  { web_version := web_version
    generator_version := none
    pages := []
    chunks := []
    stops := []
    words := [] }

/-- Embedding of `init_pagefind` (lib.rs lines 50–71), parameterized by
the external metadata decoder (src/pagefind_web/src/metadata.rs, not
under src/): a successful decode re-externalizes the new index, a
decode failure returns the null sentinel. -/
def init_pagefind
    (decode_metadata : SearchIndex → List ℕ → Except DecodeError SearchIndex)
    (web_version : String) (metadata_bytes : List ℕ) : Option SearchIndex :=
  match decode_metadata (emptySearchIndex web_version) metadata_bytes with
  | Except.ok search_index => some search_index
  | Except.error _ => none

/-- Embedding of `load_index_chunk` (lib.rs lines 73–87), parameterized
by the external chunk decoder (src/pagefind_web/src/index.rs, not under
src/): on decode success the updated index is re-externalized
(`Box::into_raw`); on decode failure the function returns the null
sentinel and the index is dropped, not handed back. -/
def load_index_chunk
    (decode : SearchIndex → List ℕ → Except DecodeError SearchIndex)
    (idx : SearchIndex) (chunk_bytes : List ℕ) : Option SearchIndex :=
  match decode idx chunk_bytes with
  | Except.ok search_index => some search_index
  | Except.error _ => none

/-- Boundary view of `request_indexes`: the handle it re-externalizes
(`Box::into_raw` on lib.rs line 108) paired with the result string. -/
def request_indexes_op (idx : SearchIndex) (query : String) :
    Option SearchIndex × String :=
  (some idx, request_indexes idx query)

/-- Boundary view of `search`: the handle it re-externalizes
(`Box::into_raw` on lib.rs lines 118, 148 and 182 — every exit path)
paired with the result string. -/
def search_op (stemmer : String → String) (idx : SearchIndex)
    (query : String) : Option SearchIndex × String :=
  (some idx, search stemmer idx query)

/-- Modelled from the spec: `decode_index_chunk`
(src/pagefind_web/src/index.rs, not under src/) per §4.2 "merges the
chunk's term → page → locations data into `words`" and touches no other
field.  The merge appends a term's postings to an existing entry and
adds a new entry otherwise. -/
def mergeWord (ws : List (String × List PageWord)) (term : String)
    (pws : List PageWord) : List (String × List PageWord) :=
  match ws with
  | [] => [(term, pws)]
  | (t, ps) :: rest =>
    if t = term then (t, ps ++ pws) :: rest
    else (t, ps) :: mergeWord rest term pws

/-- Modelled from the spec: the effect of one successful chunk decode
on the index — only the `words` field changes (§4.2). -/
def decode_index_chunk (idx : SearchIndex)
    (data : List (String × List PageWord)) : SearchIndex :=
  { idx with words := data.foldl (fun acc td => mergeWord acc td.1 td.2) idx.words }

/-- A stemmer usable in concrete examples: the identity normalization
(the reference English stemmer fixes the single-letter and already-
stemmed terms used in the concrete indexes below). -/
def idStem : String → String := fun t => t

/-- Concrete index: one page, postings only for the term "b". -/
def idxB : SearchIndex :=
  { web_version := "0.2.0"
    generator_version := none
    pages := ["pagezero"]
    chunks := []
    stops := []
    words := [("b", [⟨0, [1]⟩])] }

/-- Concrete index with a generator/runtime version mismatch. -/
def idxMismatch : SearchIndex :=
  { web_version := "0.2.0"
    generator_version := some "0.1.0"
    pages := ["pagezero"]
    chunks := []
    stops := []
    words := [("b", [⟨0, [1]⟩])] }

/-- Concrete index for the two-term intersection example: term "a"
matches pages {1,2,3}, term "b" matches pages {2,3,4}. -/
def idxAB : SearchIndex :=
  { web_version := "0.2.0"
    generator_version := some "0.2.0"
    pages := ["p0", "p1", "p2", "p3", "p4"]
    chunks := []
    stops := []
    words :=
      [("a", [⟨1, [10]⟩, ⟨2, [20]⟩, ⟨3, [30]⟩]),
       ("b", [⟨2, [21]⟩, ⟨3, [31]⟩, ⟨4, [41]⟩])] }

/-- Concrete chunk directory for routing examples. -/
def idxChunks : SearchIndex :=
  { web_version := "0.2.0"
    generator_version := none
    pages := []
    chunks :=
      [⟨"aa", "cc", "hash1"⟩, ⟨"cd", "ff", "hash2"⟩]
    stops := []
    words := [] }

/-- A trivially succeeding external decoder, for concrete witnesses of
the boundary protocol. -/
def okDecode : SearchIndex → List ℕ → Except DecodeError SearchIndex :=
  fun idx _ => Except.ok idx

/-- Invariant carried through the `bestOffAux` fold: the pair `r` holds
an offset and its window count, the count dominates the accumulator and
every scanned offset, the offset is the accumulator's or a strictly
improving scanned one, and every smaller candidate offset has a
strictly smaller count. -/
def BestInv (locs : List ℕ) (size : ℕ) (l : List ℕ) (bo bc : ℕ)
    (r : ℕ × ℕ) : Prop :=
  r.2 = countInWindow locs r.1 size
  ∧ bc ≤ r.2
  ∧ (∀ o ∈ l, countInWindow locs o size ≤ r.2)
  ∧ ((r.1 = bo ∧ r.2 = bc) ∨ (r.1 ∈ l ∧ bc < r.2))
  ∧ (∀ o, o < r.1 → (o = bo ∨ o ∈ l) → countInWindow locs o size < r.2)

theorem searchAccum_go (stemmer : String → String) (idx : SearchIndex)
    (terms : List String) (ws : List PageWord) (ms : List (List ℕ)) :
    terms.foldl
      (fun acc term =>
        match idx.words.lookup (stemmer term) with
        | some word_index => (acc.1 ++ word_index, acc.2 ++ [pageSet word_index])
        | none => acc)
      (ws, ms)
    = (ws ++ terms.flatMap (fun t => (idx.words.lookup (stemmer t)).getD []),
       ms ++ terms.filterMap (fun t => (idx.words.lookup (stemmer t)).map pageSet)) := by
  induction terms generalizing ws ms with
  | nil => simp
  | cons t ts ih =>
    rcases h : idx.words.lookup (stemmer t) with _ | wi <;>
      simp [List.foldl_cons, h, ih]

theorem searchAccum_fst (stemmer : String → String) (idx : SearchIndex)
    (q : String) :
    (searchAccum stemmer idx q).1 =
      (splitSpace q).flatMap (fun t => (idx.words.lookup (stemmer t)).getD []) := by
  rw [searchAccum, searchAccum_go]; simp

theorem searchAccum_snd (stemmer : String → String) (idx : SearchIndex)
    (q : String) :
    (searchAccum stemmer idx q).2 =
      (splitSpace q).filterMap
        (fun t => (idx.words.lookup (stemmer t)).map pageSet) := by
  rw [searchAccum, searchAccum_go]; simp

theorem insertSorted_cons_lt (n m : ℕ) (ms : List ℕ) (h : n < m) :
    insertSorted n (m :: ms) = n :: m :: ms := by
  simp [insertSorted, h]

theorem insertSorted_cons_self (n : ℕ) (ms : List ℕ) :
    insertSorted n (n :: ms) = n :: ms := by
  simp [insertSorted]

theorem insertSorted_cons_gt (n m : ℕ) (ms : List ℕ) (h1 : ¬ n < m)
    (h2 : n ≠ m) :
    insertSorted n (m :: ms) = m :: insertSorted n ms := by
  simp [insertSorted, h1, h2]

theorem mem_insertSorted (n x : ℕ) (l : List ℕ) :
    x ∈ insertSorted n l ↔ x = n ∨ x ∈ l := by
  induction l with
  | nil => simp [insertSorted]
  | cons m ms ih =>
    by_cases h1 : n < m
    · rw [insertSorted_cons_lt n m ms h1]
      simp only [List.mem_cons]
    · by_cases h2 : n = m
      · subst h2
        rw [insertSorted_cons_self]
        simp only [List.mem_cons]
        tauto
      · rw [insertSorted_cons_gt n m ms h1 h2]
        simp only [List.mem_cons, ih]
        tauto

theorem insertSorted_sorted (n : ℕ) (l : List ℕ)
    (h : List.Sorted (· < ·) l) :
    List.Sorted (· < ·) (insertSorted n l) := by
  induction l with
  | nil => simp [insertSorted]
  | cons m ms ih =>
    rw [List.sorted_cons] at h
    obtain ⟨hm, hms⟩ := h
    by_cases h1 : n < m
    · rw [insertSorted_cons_lt n m ms h1, List.sorted_cons]
      refine ⟨?_, ?_⟩
      · intro b hb
        rcases List.mem_cons.mp hb with rfl | hb
        · exact h1
        · exact h1.trans (hm b hb)
      · rw [List.sorted_cons]; exact ⟨hm, hms⟩
    · by_cases h2 : n = m
      · subst h2
        rw [insertSorted_cons_self, List.sorted_cons]
        exact ⟨hm, hms⟩
      · rw [insertSorted_cons_gt n m ms h1 h2, List.sorted_cons]
        refine ⟨?_, ih hms⟩
        intro b hb
        rw [mem_insertSorted] at hb
        rcases hb with rfl | hb
        · omega
        · exact hm b hb

theorem foldl_insertPage_mem (wi : List PageWord) (acc : List ℕ) (x : ℕ) :
    x ∈ wi.foldl (fun set p => insertSorted p.page set) acc ↔
      x ∈ acc ∨ x ∈ wi.map PageWord.page := by
  induction wi generalizing acc with
  | nil => simp
  | cons p ps ih =>
    simp only [List.foldl_cons, ih, mem_insertSorted, List.map_cons,
      List.mem_cons]
    tauto

theorem foldl_insertPage_sorted (wi : List PageWord) (acc : List ℕ)
    (h : List.Sorted (· < ·) acc) :
    List.Sorted (· < ·) (wi.foldl (fun set p => insertSorted p.page set) acc) := by
  induction wi generalizing acc with
  | nil => simpa
  | cons p ps ih => exact ih _ (insertSorted_sorted _ _ h)

theorem mem_pageSet (wi : List PageWord) (x : ℕ) :
    x ∈ pageSet wi ↔ x ∈ wi.map PageWord.page := by
  simp [pageSet, foldl_insertPage_mem]

theorem pageSet_sorted (wi : List PageWord) :
    List.Sorted (· < ·) (pageSet wi) :=
  foldl_insertPage_sorted wi [] (by simp)

theorem mem_listInter (a b : List ℕ) (x : ℕ) :
    x ∈ listInter a b ↔ x ∈ a ∧ x ∈ b := by
  simp [listInter]

theorem listInter_sorted (a b : List ℕ) (h : List.Sorted (· < ·) a) :
    List.Sorted (· < ·) (listInter a b) :=
  List.Pairwise.filter _ h

theorem foldl_listInter_sorted (ms : List (List ℕ)) (acc : List ℕ)
    (h : List.Sorted (· < ·) acc) :
    List.Sorted (· < ·) (ms.foldl listInter acc) := by
  induction ms generalizing acc with
  | nil => simpa
  | cons m rest ih => exact ih _ (listInter_sorted _ _ h)

theorem mem_foldl_listInter (ms : List (List ℕ)) (acc : List ℕ) (x : ℕ) :
    x ∈ ms.foldl listInter acc ↔ x ∈ acc ∧ ∀ m ∈ ms, x ∈ m := by
  induction ms generalizing acc with
  | nil => simp
  | cons m rest ih =>
    simp only [List.foldl_cons, ih, mem_listInter, List.mem_cons]
    constructor
    · rintro ⟨⟨h1, h2⟩, h3⟩
      exact ⟨h1, fun u hu => by rcases hu with rfl | hu; exacts [h2, h3 u hu]⟩
    · rintro ⟨h1, h2⟩
      exact ⟨⟨h1, h2 m (Or.inl rfl)⟩, fun u hu => h2 u (Or.inr hu)⟩

theorem search_eq_body (stemmer : String → String) (idx : SearchIndex)
    (q : String) (hv : versionMismatch idx = false) :
    search stemmer idx q = searchBody stemmer idx q := by
  simp [search, hv]

theorem searchBody_eq_join (stemmer : String → String) (idx : SearchIndex)
    (q : String) :
    searchBody stemmer idx q =
      strJoin " " ((searchPageList stemmer idx q).map
        (resultSegment idx (searchAccum stemmer idx q).1)) := by
  rcases h : (searchAccum stemmer idx q).2 with _ | ⟨m, rest⟩ <;>
    simp [searchBody, searchPageList, h, strJoin]

theorem searchAccum_maps_sorted (stemmer : String → String)
    (idx : SearchIndex) (q : String) :
    ∀ m ∈ (searchAccum stemmer idx q).2, List.Sorted (· < ·) m := by
  intro m hm
  rw [searchAccum_snd] at hm
  rcases List.mem_filterMap.mp hm with ⟨t, _, hsome⟩
  rcases Option.map_eq_some'.mp hsome with ⟨wi, _, hwi⟩
  rw [← hwi]
  exact pageSet_sorted wi

theorem searchPageList_sorted (stemmer : String → String)
    (idx : SearchIndex) (q : String) :
    List.Sorted (· < ·) (searchPageList stemmer idx q) := by
  rcases hmaps : (searchAccum stemmer idx q).2 with _ | ⟨m, rest⟩
  · simp [searchPageList, hmaps]
  · have hm : List.Sorted (· < ·) m := by
      refine searchAccum_maps_sorted stemmer idx q m ?_
      rw [hmaps]
      exact List.mem_cons_self _ _
    simp only [searchPageList, hmaps]
    exact foldl_listInter_sorted rest m hm

theorem le_maxLoc (locs : List ℕ) (x : ℕ) (hx : x ∈ locs) :
    x ≤ maxLoc locs := by
  induction locs with
  | nil => simp at hx
  | cons a as ih =>
    simp only [maxLoc, List.foldr_cons]
    rcases List.mem_cons.mp hx with rfl | hx
    · exact le_max_left _ _
    · exact le_trans (ih hx) (le_max_right _ _)

theorem countInWindow_nil (off size : ℕ) : countInWindow [] off size = 0 :=
  rfl

theorem countInWindow_eq_zero (locs : List ℕ) (off size : ℕ)
    (h : maxLoc locs < off) : countInWindow locs off size = 0 := by
  rw [countInWindow, List.length_eq_zero, List.filter_eq_nil_iff]
  intro a ha
  simp only [decide_eq_true_eq, not_and, not_lt]
  intro hcon
  have := le_maxLoc locs a ha
  omega

theorem bestOffAux_inv (locs : List ℕ) (size : ℕ) (l : List ℕ) (bo bc : ℕ)
    (hbc : bc = countInWindow locs bo size)
    (hsorted : List.Sorted (· < ·) l)
    (hge : ∀ x ∈ l, bo ≤ x) :
    BestInv locs size l bo bc (bestOffAux locs size l (bo, bc)) := by
  induction l generalizing bo bc with
  | nil =>
    refine ⟨hbc, le_refl _, by simp, Or.inl ⟨rfl, rfl⟩, ?_⟩
    intro o ho hmem
    rcases hmem with rfl | hmem
    · simp only [bestOffAux] at ho
      omega
    · simp at hmem
  | cons o os ih =>
    rw [List.sorted_cons] at hsorted
    obtain ⟨ho_lt, hos⟩ := hsorted
    by_cases himp : bc < countInWindow locs o size
    · have step : bestOffAux locs size (o :: os) (bo, bc)
          = bestOffAux locs size os (o, countInWindow locs o size) := by
        simp [bestOffAux, himp]
      rw [BestInv, step]
      have hge' : ∀ x ∈ os, o ≤ x := fun x hx => le_of_lt (ho_lt x hx)
      obtain ⟨ia, ib, ic, id, ie⟩ := ih o (countInWindow locs o size) rfl hos hge'
      refine ⟨ia, le_trans (le_of_lt himp) ib, ?_, ?_, ?_⟩
      · intro x hx
        rcases List.mem_cons.mp hx with rfl | hx
        · exact ib
        · exact ic x hx
      · rcases id with ⟨h1, h2⟩ | ⟨h1, h2⟩
        · refine Or.inr ⟨?_, ?_⟩
          · rw [h1]; exact List.mem_cons_self _ _
          · rw [h2]; exact himp
        · exact Or.inr ⟨List.mem_cons_of_mem _ h1, lt_trans himp h2⟩
      · intro x hx hmem
        rcases hmem with rfl | hmem
        · calc countInWindow locs x size = bc := hbc.symm
          _ < countInWindow locs o size := himp
          _ ≤ _ := ib
        · rcases List.mem_cons.mp hmem with rfl | hmem
          · exact ie x hx (Or.inl rfl)
          · exact ie x hx (Or.inr hmem)
    · have step : bestOffAux locs size (o :: os) (bo, bc)
          = bestOffAux locs size os (bo, bc) := by
        simp [bestOffAux, himp]
      rw [BestInv, step]
      have hge' : ∀ x ∈ os, bo ≤ x := fun x hx => hge x (List.mem_cons_of_mem _ hx)
      obtain ⟨ia, ib, ic, id, ie⟩ := ih bo bc hbc hos hge'
      have hle : countInWindow locs o size ≤ bc := not_lt.mp himp
      refine ⟨ia, ib, ?_, ?_, ?_⟩
      · intro x hx
        rcases List.mem_cons.mp hx with rfl | hx
        · exact le_trans hle ib
        · exact ic x hx
      · rcases id with h | ⟨h1, h2⟩
        · exact Or.inl h
        · exact Or.inr ⟨List.mem_cons_of_mem _ h1, h2⟩
      · intro x hx hmem
        rcases hmem with rfl | hmem
        · exact ie x hx (Or.inl rfl)
        · rcases List.mem_cons.mp hmem with rfl | hmem
          · rcases id with ⟨h1, _⟩ | ⟨_, h2⟩
            · exfalso
              rw [h1] at hx
              exact absurd (hge x (List.mem_cons_self _ _)) (not_le.mpr hx)
            · exact lt_of_le_of_lt hle h2
          · exact ie x hx (Or.inr hmem)

theorem filterMap_map_of_isSome {α β γ : Type} (f : α → Option β)
    (g : β → γ) (d : β) (l : List α)
    (h : ∀ t ∈ l, (f t).isSome = true) :
    l.filterMap (fun t => (f t).map g) = l.map (fun t => g ((f t).getD d)) := by
  induction l with
  | nil => rfl
  | cons a as ih =>
    have ha := h a (List.mem_cons_self _ _)
    rcases hfa : f a with _ | b
    · rw [hfa] at ha; simp at ha
    · simp only [List.filterMap_cons, List.map_cons, hfa, Option.map_some',
        Option.getD_some]
      rw [ih (fun t ht => h t (List.mem_cons_of_mem _ ht))]

theorem mem_foldl_finsetInter (ss : List (Finset ℕ)) (s : Finset ℕ) (x : ℕ) :
    x ∈ ss.foldl (· ∩ ·) s ↔ x ∈ s ∧ ∀ u ∈ ss, x ∈ u := by
  induction ss generalizing s with
  | nil => simp
  | cons u us ih =>
    simp only [List.foldl_cons, ih, Finset.mem_inter, List.mem_cons]
    constructor
    · rintro ⟨⟨h1, h2⟩, h3⟩
      refine ⟨h1, fun v hv => ?_⟩
      rcases hv with rfl | hv
      exacts [h2, h3 v hv]
    · rintro ⟨h1, h2⟩
      exact ⟨⟨h1, h2 u (Or.inl rfl)⟩, fun v hv => h2 v (Or.inr hv)⟩

theorem pageLocs_append (a b : List PageWord) (page : ℕ) :
    pageLocs (a ++ b) page = pageLocs a page ++ pageLocs b page := by
  simp [pageLocs, List.filterMap_append]

theorem pageLocs_flatMap {α : Type} (l : List α) (f : α → List PageWord)
    (page : ℕ) :
    pageLocs (l.flatMap f) page = l.flatMap (fun t => pageLocs (f t) page) := by
  induction l with
  | nil => rfl
  | cons a as ih => simp [List.flatMap_cons, pageLocs_append, ih]

theorem pageLocs_eq_filter_flatMap (ws : List PageWord) (page : ℕ) :
    pageLocs ws page =
      (ws.filter (fun p => decide (p.page = page))).flatMap PageWord.locs := by
  induction ws with
  | nil => rfl
  | cons p ps ih =>
    simp only [pageLocs, List.filterMap_cons, List.filter_cons] at *
    by_cases h : p.page = page
    · rw [if_pos h, if_pos (decide_eq_true h), List.flatten_cons,
        List.flatMap_cons, ih]
    · rw [if_neg h, if_neg (by simp [h]), ih]

theorem request_go (idx : SearchIndex) (terms : List String)
    (acc : List String) :
    terms.foldl
      (fun acc term =>
        match idx.chunks.find?
            (fun chunk => strLe chunk.«from» term && strLe term chunk.«to») with
        | some index => acc ++ [index.hash]
        | none => acc)
      acc
    = acc ++ terms.filterMap (fun term =>
        (idx.chunks.find?
          (fun chunk => strLe chunk.«from» term && strLe term chunk.«to»)).map
          IndexChunk.hash) := by
  induction terms generalizing acc with
  | nil => simp
  | cons t ts ih =>
    rcases hf : idx.chunks.find?
        (fun chunk => strLe chunk.«from» t && strLe t chunk.«to») with _ | c <;>
      simp [List.foldl_cons, List.filterMap_cons, hf, ih]

theorem decode_index_chunk_chunks (idx : SearchIndex)
    (data : List (String × List PageWord)) :
    (decode_index_chunk idx data).chunks = idx.chunks :=
  rfl

theorem foldl_decode_chunks (datas : List (List (String × List PageWord)))
    (idx : SearchIndex) :
    (datas.foldl decode_index_chunk idx).chunks = idx.chunks := by
  induction datas generalizing idx with
  | nil => rfl
  | cons d ds ih => rw [List.foldl_cons, ih, decode_index_chunk_chunks]

theorem request_indexes_chunks_only (idx idx₂ : SearchIndex) (q : String)
    (h : idx.chunks = idx₂.chunks) :
    request_indexes idx q = request_indexes idx₂ q := by
  rw [request_indexes, request_indexes, h]

/-- Claim C6 (confirmed; the excerpt selector is modelled from the
spec, src/pagefind_web/src/excerpt.rs being absent from src/): for
every location list and window size, `calculate_excerpt` returns a
single starting offset whose window `[offset, offset + size)` contains
the maximum number of matched positions among all windows, ties broken
by the lowest offset; for an empty location list it returns offset 0. -/
theorem calculate_excerpt_spec (locs : List ℕ) (size : ℕ) :
    (locs = [] → calculate_excerpt locs size = 0)
    ∧ (∀ off, countInWindow locs off size
        ≤ countInWindow locs (calculate_excerpt locs size) size)
    ∧ ∀ off, off < calculate_excerpt locs size →
        countInWindow locs off size
          < countInWindow locs (calculate_excerpt locs size) size := by
  obtain ⟨ia, ib, ic, id, ie⟩ :=
    bestOffAux_inv locs size (List.range (maxLoc locs + 1)) 0
      (countInWindow locs 0 size) rfl (List.sorted_lt_range _)
      (fun x _ => Nat.zero_le x)
  have hce : calculate_excerpt locs size
      = (bestOffAux locs size (List.range (maxLoc locs + 1))
          (0, countInWindow locs 0 size)).1 := rfl
  refine ⟨?_, ?_, ?_⟩
  · rintro rfl
    rcases id with ⟨h1, _⟩ | ⟨_, h2⟩
    · rw [hce, h1]
    · rw [ia] at h2
      simp only [countInWindow_nil] at h2
      omega
  · intro off
    rw [hce, ← ia]
    by_cases hoff : off ≤ maxLoc locs
    · exact ic off (List.mem_range.mpr (by omega))
    · rw [countInWindow_eq_zero locs off size (by omega)]
      exact Nat.zero_le _
  · intro off hlt
    rw [hce] at hlt
    rw [hce, ← ia]
    refine ie off hlt (Or.inr (List.mem_range.mpr ?_))
    rcases id with ⟨h1, _⟩ | ⟨h1, _⟩
    · omega
    · have := List.mem_range.mp h1
      omega

/-- Witness for C6 at the spec's own example: on locations
`[5, 6, 7, 40]` with window size 30 the selector returns offset 0,
whose window covers the cluster `{5, 6, 7}`, and the window of the
outlier-anchored offset 40 holds no more matches. -/
theorem calculate_excerpt_spec_witness :
    calculate_excerpt [5, 6, 7, 40] 30 = 0
    ∧ countInWindow [5, 6, 7, 40] 40 30
        ≤ countInWindow [5, 6, 7, 40] (calculate_excerpt [5, 6, 7, 40] 30) 30
    ∧ countInWindow [5, 6, 7, 40] 0 30 = 3 :=
  ⟨by decide, (calculate_excerpt_spec [5, 6, 7, 40] 30).2.1 40, by decide⟩

/-- Claim C2 (confirmed): if the index's `generator_version` is set and
differs from the runtime version, `search` returns exactly
"ERROR: Version mismatch" — for every query and every stemmer, i.e.
without consulting the query terms or the posting store — and if
`generator_version` is unset or equal to the runtime version, `search`
is the normal query evaluation `searchBody`. -/
theorem search_version_gate (stemmer : String → String)
    (idx : SearchIndex) (q : String) :
    (∀ g, idx.generator_version = some g → g ≠ idx.web_version →
      search stemmer idx q = "ERROR: Version mismatch")
    ∧ ((idx.generator_version = none
        ∨ idx.generator_version = some idx.web_version) →
      search stemmer idx q = searchBody stemmer idx q) := by
  constructor
  · intro g hg hne
    have hv : versionMismatch idx = true := by
      simp [versionMismatch, hg, hne]
    simp [search, hv]
  · intro hor
    have hv : versionMismatch idx = false := by
      rcases hor with h | h <;> simp [versionMismatch, h]
    simp [search, hv]

/-- Witness for C2: a concrete mismatched index (generator "0.1.0",
runtime "0.2.0") yields the sentinel string, and a concrete matching
index proceeds to normal evaluation. -/
theorem search_version_gate_witness :
    search idStem idxMismatch "b" = "ERROR: Version mismatch"
    ∧ search idStem idxB "b" = searchBody idStem idxB "b" :=
  ⟨(search_version_gate idStem idxMismatch "b").1 "0.1.0" rfl (by decide),
   (search_version_gate idStem idxB "b").2 (Or.inl rfl)⟩

/-- Counterexample to C1 as stated: in `idxB` the term "a" stems to
"a", which has no entry in `words`, yet `search` on the query "a b"
does not return the empty string — the absent term is skipped and the
present term "b" still matches page 0.  (lib.rs lines 132–141: a term
whose lookup misses pushes no set onto `maps` at all, so it does not
contribute an empty set to the intersection.) -/
theorem search_absent_term_counterexample :
    idxB.words.lookup (idStem "a") = none
    ∧ "a" ∈ splitSpace "a b"
    ∧ search idStem idxB "a b" = "pagezero@0,30@1"
    ∧ search idStem idxB "a b" ≠ "" :=
  ⟨rfl, by decide, by decide, by decide⟩

/-- Claim C1 (corrected): a query term whose stem has no entry in
`words` is skipped, contributing no constraint; only when the version
gate passes and every term of the query stems to an absent term does
`search` return the empty string. -/
theorem search_all_terms_absent (stemmer : String → String)
    (idx : SearchIndex) (q : String)
    (hv : versionMismatch idx = false)
    (h : ∀ t ∈ splitSpace q, idx.words.lookup (stemmer t) = none) :
    search stemmer idx q = "" := by
  rw [search_eq_body stemmer idx q hv]
  have hmaps : (searchAccum stemmer idx q).2 = [] := by
    rw [searchAccum_snd, List.filterMap_eq_nil_iff]
    intro t ht
    rw [h t ht]
    rfl
  simp [searchBody, hmaps]

/-- Witness for C1 (corrected): both terms of "x y" are absent from
`idxB.words`, and the search result is the empty string. -/
theorem search_all_terms_absent_witness :
    versionMismatch idxB = false
    ∧ (∀ t ∈ splitSpace "x y", idxB.words.lookup (idStem t) = none)
    ∧ search idStem idxB "x y" = "" :=
  ⟨rfl, by decide, search_all_terms_absent idStem idxB "x y" rfl (by decide)⟩

/-- Counterexample to C3 as stated: `load_index_chunk` does not hand
ownership of the index back on its error path — a failing chunk decode
drops the boxed index and returns the null sentinel (lib.rs lines
81–86), so the construction entry point is not the only one returning
the no-object sentinel. -/
theorem load_index_chunk_drops_on_error :
    load_index_chunk (fun _ _ => Except.error "malformed") idxB [0] = none :=
  rfl

/-- Claim C3 (corrected): `request_indexes` and `search` re-externalize
the index on every exit path; `load_index_chunk` re-externalizes the
(updated) index exactly when its decode succeeds and, like
`init_pagefind`, returns the null sentinel on decode failure. -/
theorem boundary_ownership (stemmer : String → String) (idx : SearchIndex)
    (q : String) (bytes : List ℕ)
    (decode : SearchIndex → List ℕ → Except DecodeError SearchIndex) :
    (request_indexes_op idx q).1 = some idx
    ∧ (search_op stemmer idx q).1 = some idx
    ∧ (∀ idx', decode idx bytes = Except.ok idx' →
        load_index_chunk decode idx bytes = some idx')
    ∧ ∀ e, decode idx bytes = Except.error e →
        load_index_chunk decode idx bytes = none := by
  refine ⟨rfl, rfl, ?_, ?_⟩
  · intro idx' hok
    simp [load_index_chunk, hok]
  · intro e herr
    simp [load_index_chunk, herr]

/-- Witness for C3 (corrected) at concrete inputs: the routing and
search operations hand back the very same index, and a succeeding
decoder's chunk load hands back the decoded index. -/
theorem boundary_ownership_witness :
    (request_indexes_op idxB "b").1 = some idxB
    ∧ (search_op idStem idxB "b").1 = some idxB
    ∧ load_index_chunk okDecode idxB [] = some idxB :=
  ⟨(boundary_ownership idStem idxB "b" [] okDecode).1,
   (boundary_ownership idStem idxB "b" [] okDecode).2.1,
   (boundary_ownership idStem idxB "b" [] okDecode).2.2.1 idxB rfl⟩

/-- Claim C4 (confirmed): when every stemmed query term has an entry in
`words`, the set of result pages is the left-to-right intersection, in
term order, of the per-term sets of distinct page indices appearing in
each term's posting list. -/
theorem search_conjunctive_intersection (stemmer : String → String)
    (idx : SearchIndex) (q : String)
    (h : ∀ t ∈ splitSpace q, (idx.words.lookup (stemmer t)).isSome = true) :
    (searchPageList stemmer idx q).toFinset =
      match (splitSpace q).map (fun t =>
          (((idx.words.lookup (stemmer t)).getD []).map PageWord.page).toFinset) with
      | [] => ∅
      | s :: ss => ss.foldl (· ∩ ·) s := by
  have hmaps : (searchAccum stemmer idx q).2 =
      (splitSpace q).map (fun t => pageSet ((idx.words.lookup (stemmer t)).getD [])) := by
    rw [searchAccum_snd]
    exact filterMap_map_of_isSome _ _ [] _ h
  rcases hq : splitSpace q with _ | ⟨t, ts⟩
  · rw [hq] at hmaps
    simp [searchPageList, hmaps]
  · rw [hq] at hmaps
    simp only [List.map_cons] at hmaps ⊢
    simp only [searchPageList, hmaps]
    ext x
    rw [List.mem_toFinset, mem_foldl_listInter, mem_foldl_finsetInter]
    constructor
    · rintro ⟨h1, h2⟩
      refine ⟨?_, ?_⟩
      · rw [List.mem_toFinset, ← mem_pageSet]
        exact h1
      · intro u hu
        rcases List.mem_map.mp hu with ⟨t', ht', rfl⟩
        rw [List.mem_toFinset, ← mem_pageSet]
        exact h2 _ (List.mem_map.mpr ⟨t', ht', rfl⟩)
    · rintro ⟨h1, h2⟩
      refine ⟨?_, ?_⟩
      · rw [mem_pageSet, ← List.mem_toFinset]
        exact h1
      · intro m hm
        rcases List.mem_map.mp hm with ⟨t', ht', rfl⟩
        rw [mem_pageSet, ← List.mem_toFinset]
        exact h2 _ (List.mem_map.mpr ⟨t', ht', rfl⟩)

/-- Witness for C4 at the spec's own example: in `idxAB` term "a"
matches pages {1,2,3} and term "b" matches pages {2,3,4}; the result
page set of the query "a b" is exactly {2,3}. -/
theorem search_conjunctive_intersection_witness :
    (∀ t ∈ splitSpace "a b", (idxAB.words.lookup (idStem t)).isSome = true)
    ∧ (searchPageList idStem idxAB "a b").toFinset =
        (match (splitSpace "a b").map (fun t =>
            (((idxAB.words.lookup (idStem t)).getD []).map PageWord.page).toFinset) with
        | [] => ∅
        | s :: ss => ss.foldl (· ∩ ·) s)
    ∧ (searchPageList idStem idxAB "a b").toFinset = ({2, 3} : Finset ℕ)
    ∧ searchPageList idStem idxAB "a b" = [2, 3] :=
  ⟨by decide, search_conjunctive_intersection idStem idxAB "a b" (by decide),
   by decide, by decide⟩

/-- Claim C5 (confirmed): `request_indexes` splits the query on spaces
without stemming and, for each term in order, scans `chunks` in order
for the first entry whose inclusive lexicographic range `[from, to]`
contains the term, collecting its hash; terms matching no chunk
contribute nothing, duplicates are kept, and the hashes are joined
with single spaces.  Any chunk the scan returns really is a directory
entry whose range contains the term. -/
theorem request_indexes_spec (idx : SearchIndex) (q : String) :
    request_indexes idx q =
      strJoin " " ((splitSpace q).filterMap (fun term =>
        (idx.chunks.find?
          (fun chunk => strLe chunk.«from» term && strLe term chunk.«to»)).map
          IndexChunk.hash))
    ∧ ∀ term c,
        idx.chunks.find?
          (fun chunk => strLe chunk.«from» term && strLe term chunk.«to») = some c →
        c ∈ idx.chunks ∧ strLe c.«from» term = true ∧ strLe term c.«to» = true := by
  constructor
  · rw [request_indexes, request_go]
    rfl
  · intro term c hc
    have hmem := List.mem_of_find?_eq_some hc
    have hp := List.find?_some hc
    rw [Bool.and_eq_true] at hp
    exact ⟨hmem, hp.1, hp.2⟩

/-- Witness for C5 on a concrete directory: "bat" and "cat" route to
the first chunk, "dog" to the second; the same hash is collected twice
and the result is the space-joined hash sequence in term order. -/
theorem request_indexes_spec_witness :
    request_indexes idxChunks "bat dog cat" = "hash1 hash2 hash1"
    ∧ idxChunks.chunks.find?
        (fun chunk => strLe chunk.«from» "bat" && strLe "bat" chunk.«to»)
        = some ⟨"aa", "cc", "hash1"⟩
    ∧ ⟨"aa", "cc", "hash1"⟩ ∈ idxChunks.chunks
    ∧ strLe (IndexChunk.mk "aa" "cc" "hash1").«from» "bat" = true :=
  ⟨by decide, by decide,
   ((request_indexes_spec idxChunks "bat dog cat").2 "bat"
      ⟨"aa", "cc", "hash1"⟩ (by decide)).1,
   ((request_indexes_spec idxChunks "bat dog cat").2 "bat"
      ⟨"aa", "cc", "hash1"⟩ (by decide)).2.1⟩

/-- Claim C7 (confirmed; the chunk decoder is modelled from the spec,
src/pagefind_web/src/index.rs being absent from src/): neither
`request_indexes` nor `search` mutates the index — both hand back the
index they received, unchanged — and the output of `request_indexes`
depends only on the `chunks` directory, so it is unchanged by any
sequence of chunk loads, which modify only `words`. -/
theorem request_indexes_frame (idx idx₂ : SearchIndex) (q : String)
    (stemmer : String → String)
    (datas : List (List (String × List PageWord)))
    (h : idx.chunks = idx₂.chunks) :
    request_indexes idx q = request_indexes idx₂ q
    ∧ request_indexes (datas.foldl decode_index_chunk idx) q
        = request_indexes idx q
    ∧ (request_indexes_op idx q).1 = some idx
    ∧ (search_op stemmer idx q).1 = some idx :=
  ⟨request_indexes_chunks_only idx idx₂ q h,
   request_indexes_chunks_only _ idx q (foldl_decode_chunks datas idx),
   rfl, rfl⟩

/-- Witness for C7: routing on the chunkless index `idxB` agrees with
routing on the chunkless `idxAB`, is unchanged by a concrete chunk
load, and both operations hand the index back. -/
theorem request_indexes_frame_witness :
    request_indexes idxB "a" = request_indexes idxAB "a"
    ∧ request_indexes ([[("zz", [⟨0, [7]⟩])]].foldl decode_index_chunk idxB) "a"
        = request_indexes idxB "a"
    ∧ (request_indexes_op idxB "a").1 = some idxB
    ∧ (search_op idStem idxB "a").1 = some idxB :=
  request_indexes_frame idxB idxAB "a" idStem [[("zz", [⟨0, [7]⟩])]] rfl

/-- Claim C8 (confirmed): past the version gate, the `search` result is
the space-joined sequence of one segment per surviving page, each of
the exact form `page_identifier "@" excerpt_offset "," window_size "@"
comma_joined_locations`, where the window size is the fixed 30 and the
location list is `pageLocs` — all matched-term locations belonging to
that page, flattened; when no query term has postings the result is
the empty string. -/
theorem search_result_format (stemmer : String → String)
    (idx : SearchIndex) (q : String)
    (hv : versionMismatch idx = false) :
    search stemmer idx q =
      strJoin " " ((searchPageList stemmer idx q).map (fun page =>
        (idx.pages.getD page "") ++ "@" ++
          Nat.repr (calculate_excerpt
            (pageLocs (searchAccum stemmer idx q).1 page) 30) ++ "," ++
          Nat.repr 30 ++ "@" ++
          strJoin "," ((pageLocs (searchAccum stemmer idx q).1 page).map Nat.repr)))
    ∧ Nat.repr 30 = "30"
    ∧ ((searchAccum stemmer idx q).2 = [] → search stemmer idx q = "") := by
  refine ⟨?_, rfl, ?_⟩
  · rw [search_eq_body stemmer idx q hv, searchBody_eq_join]
    rfl
  · intro hmaps
    rw [search_eq_body stemmer idx q hv]
    simp [searchBody, hmaps]

/-- Witness for C8 on `idxB` with query "b": the joined-segment form
evaluates to the concrete result string "pagezero@0,30@1". -/
theorem search_result_format_witness :
    versionMismatch idxB = false
    ∧ search idStem idxB "b" =
        strJoin " " ((searchPageList idStem idxB "b").map (fun page =>
          (idxB.pages.getD page "") ++ "@" ++
            Nat.repr (calculate_excerpt
              (pageLocs (searchAccum idStem idxB "b").1 page) 30) ++ "," ++
            Nat.repr 30 ++ "@" ++
            strJoin "," ((pageLocs (searchAccum idStem idxB "b").1 page).map Nat.repr)))
    ∧ search idStem idxB "b" = "pagezero@0,30@1" :=
  ⟨rfl, (search_result_format idStem idxB "b" rfl).1, by decide⟩

/-- Claim C9 (confirmed): the intersection page list `search` iterates
is strictly ascending in page index — the BitSet iterates set bits in
ascending order — so segments are emitted in strictly ascending page
order and, the embedding being a pure function of the index state and
query, the output string is fully deterministic. -/
theorem search_emission_ascending (stemmer : String → String)
    (idx : SearchIndex) (q : String) :
    List.Sorted (· < ·) (searchPageList stemmer idx q)
    ∧ (versionMismatch idx = false →
        search stemmer idx q =
          strJoin " " ((searchPageList stemmer idx q).map
            (resultSegment idx (searchAccum stemmer idx q).1))) :=
  ⟨searchPageList_sorted stemmer idx q,
   fun hv => by rw [search_eq_body stemmer idx q hv, searchBody_eq_join]⟩

/-- Witness for C9 on `idxAB` with query "a b": the emitted page list
is the strictly ascending [2, 3] and the output is the segment join. -/
theorem search_emission_ascending_witness :
    searchPageList idStem idxAB "a b" = [2, 3]
    ∧ List.Sorted (· < ·) (searchPageList idStem idxAB "a b")
    ∧ search idStem idxAB "a b" =
        strJoin " " ((searchPageList idStem idxAB "a b").map
          (resultSegment idxAB (searchAccum idStem idxAB "a b").1)) :=
  ⟨by decide, (search_emission_ascending idStem idxAB "a b").1,
   (search_emission_ascending idStem idxAB "a b").2 rfl⟩

/-- Claim C10 (confirmed): the emitted page list never repeats a page
(BitSet insertion coalesces duplicate page indices, even when a
posting list holds several records for one page), and each page's
location list is the in-order concatenation, across query terms in
term order, of the `locs` of every record for that page — no
deduplication, no re-sorting. -/
theorem search_duplicate_postings (stemmer : String → String)
    (idx : SearchIndex) (q : String) :
    (searchPageList stemmer idx q).Nodup
    ∧ ∀ page, pageLocs (searchAccum stemmer idx q).1 page =
        (splitSpace q).flatMap (fun t =>
          (((idx.words.lookup (stemmer t)).getD []).filter
            (fun p => decide (p.page = page))).flatMap PageWord.locs) := by
  constructor
  · exact (searchPageList_sorted stemmer idx q).nodup
  · intro page
    rw [searchAccum_fst, pageLocs_flatMap]
    exact congrArg (List.flatMap (splitSpace q))
      (funext fun t => pageLocs_eq_filter_flatMap _ page)
